import Mathlib

/-!
Shallow embedding of the core of `library.py` from the repository
"Reverse-Engineering-INTEL-DRAM-Address-functions":

* `parse_drama_output` (library.py lines 59-76): splits the report text into
  lines (Python `str.splitlines`), matches each line against the pattern
  `(Row|Column|Bank) bits (\d+)-(\d+)` anchored at the start of the line
  (Python `re.match`), and records `key.lower() -> (start, end - start + 1)`
  in a dict (last write wins).
* `generate_address_mapping_function` / `address_mapping_func` /
  `extract_bits` (library.py lines 78-102): builds the decoder
  `phys_addr -> (row, column, bank)` where each field is
  `(phys_addr >> start) & ((1 << length) - 1)`.

Modelling conventions: Python strings are Lean `String` or `List Char`;
the dict is an association list with in-place overwrite (`dictInsert`) and
`dict.get` with default (`dictGet`); Python `int` field-spec components are
`Int` (the parser can store a negative width, since `end - start + 1 < 0`
when `end < start`); the physical address is a `Nat` (the spec declares it
an unsigned integer); a Python `ValueError` from a negative shift count
(`1 << length` or `value >> start` with a negative argument) is `none`, so
`extract_bits` and the decoder return `Option`.  The character class `\d`
is modelled as the ASCII digits `0`-`9` (`Char.isDigit`), which is faithful
on every ASCII report text.
-/

/-- One Unicode scalar is a Python line boundary for `str.splitlines`:
LF, CR, VT, FF, FS, GS, RS, NEL, LINE SEPARATOR, PARAGRAPH SEPARATOR. -/
def isLineBreak (c : Char) : Bool :=
  c.toNat = 10 ∨ c.toNat = 13 ∨ c.toNat = 11 ∨ c.toNat = 12 ∨
  c.toNat = 28 ∨ c.toNat = 29 ∨ c.toNat = 30 ∨ c.toNat = 133 ∨
  c.toNat = 8232 ∨ c.toNat = 8233

/-- Accumulator-based worker for `splitlines`; `cur` holds the current line
reversed.  A CR immediately followed by LF ends one line, any other line
boundary ends one line, and a final line without a terminator is kept
(Python emits no empty final line for a trailing terminator). -/
def splitlinesAux (cur : List Char) : List Char → List (List Char)
  | [] => if cur.isEmpty then [] else [cur.reverse]
  | '\r' :: '\n' :: rest => cur.reverse :: splitlinesAux [] rest
  | c :: rest =>
      if isLineBreak c then cur.reverse :: splitlinesAux [] rest
      else splitlinesAux (c :: cur) rest

/-- Python `str.splitlines`. -/
def splitlines (s : List Char) : List (List Char) := splitlinesAux [] s

/-- A field spec as stored by the parser: `(start, length)`, both Python
ints. -/
abbrev FieldSpec := Int × Int

/-- The Python dict `mapping_info`, as an association list in insertion
order. -/
abbrev FieldMapping := List (String × FieldSpec)

/-- Python dict assignment `m[k] = v`: overwrite in place if the key is
present, else append. -/
def dictInsert : FieldMapping → String → FieldSpec → FieldMapping
  | [], k, v => [(k, v)]
  | (k₀, v₀) :: rest, k, v =>
      if k₀ = k then (k, v) :: rest else (k₀, v₀) :: dictInsert rest k v

/-- Python `m.get(k, d)`. -/
def dictGet (m : FieldMapping) (k : String) (d : FieldSpec) : FieldSpec :=
  match m.find? (fun p => p.1 = k) with
  | some p => p.2
  | none => d

/-- Match a literal character sequence at the start of the input, returning
the remainder on success. -/
def matchLit : List Char → List Char → Option (List Char)
  | [], rest => some rest
  | _ :: _, [] => none
  | p :: ps, c :: cs => if c = p then matchLit ps cs else none

/-- Decimal digit string to number, as Python `int` on a digit string. -/
def digitsToNat (ds : List Char) : Nat :=
  ds.foldl (fun a c => 10 * a + (c.toNat - 48)) 0

/-- Match the regex fragment `(\d+)-(\d+)` at the start of the input:
a maximal nonempty digit run, a literal `-`, then a maximal nonempty digit
run; anything after the second run is ignored (the pattern is not anchored
at the end). -/
def matchRange (s : List Char) : Option (Nat × Nat) :=
  let d₁ := s.takeWhile Char.isDigit
  if d₁.isEmpty then none
  else
    match s.dropWhile Char.isDigit with
    | '-' :: r₂ =>
        let d₂ := r₂.takeWhile Char.isDigit
        if d₂.isEmpty then none
        else some (digitsToNat d₁, digitsToNat d₂)
    | _ => none

/-- One alternative of the regex: the label, the literal `" bits "`, then
the bit range; on success the canonical lowercase key and the two numbers. -/
def tryLabel (lab key : String) (line : List Char) : Option (String × Nat × Nat) :=
  match matchLit (lab.data ++ " bits ".data) line with
  | none => none
  | some r =>
      match matchRange r with
      | none => none
      | some (s, e) => some (key, s, e)

/-- `re.match(r"(Row|Column|Bank) bits (\d+)-(\d+)", line)` together with
`key = group(1).lower()`, `start = int(group(2))`, `end = int(group(3))`.
The three labels share no common start, so ordered alternation is
first-match-wins. -/
def matchLine (line : List Char) : Option (String × Nat × Nat) :=
  match tryLabel "Row" "row" line with
  | some r => some r
  | none =>
      match tryLabel "Column" "column" line with
      | some r => some r
      | none => tryLabel "Bank" "bank" line

/-- The parsing loop of `parse_drama_output` over an explicit list of lines,
starting from dict `m`: each matching line stores
`key -> (start, end - start + 1)`. -/
def parseLinesFrom (m : FieldMapping) (ls : List (List Char)) : FieldMapping :=
  ls.foldl
    (fun acc line =>
      match matchLine line with
      | some (key, s, e) => dictInsert acc key ((s : Int), (e : Int) - (s : Int) + 1)
      | none => acc)
    m

/-- `parse_drama_output` (library.py lines 59-76). -/
def parse_drama_output (output : String) : FieldMapping :=
  parseLinesFrom [] (splitlines output.data)

/-- `extract_bits` (library.py lines 85-88); `none` models the Python
`ValueError` raised by a negative shift count in `1 << length` or
`value >> start`. -/
def extract_bits (value : Nat) (start length : Int) : Option Nat :=
  if length < 0 ∨ start < 0 then none
  else some ((value >>> start.toNat) &&& (2 ^ length.toNat - 1))

/-- `address_mapping_func` (library.py lines 90-99): decode row, column and
bank in that order, each field spec looked up with default `(0, 0)`. -/
def address_mapping_func (mapping_info : FieldMapping) (phys_addr : Nat) :
    Option (Nat × Nat × Nat) := do
  let row ← extract_bits phys_addr
    (dictGet mapping_info "row" (0, 0)).1 (dictGet mapping_info "row" (0, 0)).2
  let col ← extract_bits phys_addr
    (dictGet mapping_info "column" (0, 0)).1 (dictGet mapping_info "column" (0, 0)).2
  let bank ← extract_bits phys_addr
    (dictGet mapping_info "bank" (0, 0)).1 (dictGet mapping_info "bank" (0, 0)).2
  return (row, col, bank)

/-- `generate_address_mapping_function` (library.py lines 78-102): returns
the closure `address_mapping_func` capturing `mapping_info`. -/
def generate_address_mapping_function (mapping_info : FieldMapping) :
    Nat → Option (Nat × Nat × Nat) :=
  address_mapping_func mapping_info

/-! ### Dictionary lemmas -/

theorem dictGet_dictInsert_self (m : FieldMapping) (k : String) (v d : FieldSpec) :
    dictGet (dictInsert m k v) k d = v := by
  induction m with
  | nil => simp [dictInsert, dictGet, List.find?]
  | cons p rest ih =>
      obtain ⟨k₀, v₀⟩ := p
      by_cases h : k₀ = k
      · simp [dictInsert, h, dictGet, List.find?]
      · simpa [dictInsert, h, dictGet, List.find?] using ih

theorem dictGet_dictInsert_ne (m : FieldMapping) (k₀ k : String) (v d : FieldSpec)
    (h : k₀ ≠ k) : dictGet (dictInsert m k₀ v) k d = dictGet m k d := by
  induction m with
  | nil => simp [dictInsert, dictGet, List.find?, h]
  | cons p rest ih =>
      obtain ⟨k₁, v₁⟩ := p
      by_cases h₁ : k₁ = k₀
      · subst h₁
        simp [dictInsert, dictGet, List.find?, h]
      · by_cases h₂ : k₁ = k
        · subst h₂
          simp [dictInsert, h₁, dictGet, List.find?]
        · simpa [dictInsert, h₁, dictGet, List.find?, h₂] using ih

theorem mem_dictInsert (m : FieldMapping) (k : String) (v : FieldSpec)
    (p : String × FieldSpec) (h : p ∈ dictInsert m k v) : p = (k, v) ∨ p ∈ m := by
  induction m with
  | nil => simpa [dictInsert] using h
  | cons q rest ih =>
      obtain ⟨k₀, v₀⟩ := q
      by_cases h₀ : k₀ = k
      · simp [dictInsert, h₀] at h
        rcases h with h | h
        · exact Or.inl (by simp [h])
        · exact Or.inr (by simp [h])
      · simp [dictInsert, h₀] at h
        rcases h with h | h
        · exact Or.inr (by simp [h])
        · rcases ih h with h' | h'
          · exact Or.inl h'
          · exact Or.inr (by simp [h'])

/-! ### Literal-matching lemmas -/

theorem matchLit_self_append (p s : List Char) : matchLit p (p ++ s) = some s := by
  induction p with
  | nil => rfl
  | cons c cs ih => simp [matchLit, ih]

theorem matchLit_cons_ne (p c : Char) (ps cs : List Char) (h : c ≠ p) :
    matchLit (p :: ps) (c :: cs) = none := by
  simp [matchLit, h]

theorem takeWhile_digits (d rest : List Char) (hd : ∀ c ∈ d, Char.isDigit c)
    (hr : ∀ c, rest.head? = some c → Char.isDigit c = false) :
    (d ++ rest).takeWhile Char.isDigit = d := by
  induction d with
  | nil =>
      cases rest with
      | nil => rfl
      | cons c cs => simp [List.takeWhile_cons, hr c (by simp)]
  | cons c cs ih =>
      simp [List.takeWhile_cons, hd c (by simp),
        ih (fun x hx => hd x (by simp [hx]))]

theorem dropWhile_digits (d rest : List Char) (hd : ∀ c ∈ d, Char.isDigit c)
    (hr : ∀ c, rest.head? = some c → Char.isDigit c = false) :
    (d ++ rest).dropWhile Char.isDigit = rest := by
  induction d with
  | nil =>
      cases rest with
      | nil => rfl
      | cons c cs => simp [List.dropWhile_cons, hr c (by simp)]
  | cons c cs ih =>
      simp [List.dropWhile_cons, hd c (by simp),
        ih (fun x hx => hd x (by simp [hx]))]

theorem matchRange_eq (d₁ d₂ extra : List Char)
    (h₁ : d₁ ≠ []) (h₂ : d₂ ≠ [])
    (hd₁ : ∀ c ∈ d₁, Char.isDigit c) (hd₂ : ∀ c ∈ d₂, Char.isDigit c)
    (hx : ∀ c, extra.head? = some c → Char.isDigit c = false) :
    matchRange (d₁ ++ '-' :: (d₂ ++ extra)) = some (digitsToNat d₁, digitsToNat d₂) := by
  have hdash : ∀ c, ('-' :: (d₂ ++ extra)).head? = some c → Char.isDigit c = false := by
    intro c hc
    simp at hc
    subst hc
    decide
  have ht : (d₁ ++ '-' :: (d₂ ++ extra)).takeWhile Char.isDigit = d₁ :=
    takeWhile_digits _ _ hd₁ hdash
  have hdrop : (d₁ ++ '-' :: (d₂ ++ extra)).dropWhile Char.isDigit = '-' :: (d₂ ++ extra) :=
    dropWhile_digits _ _ hd₁ hdash
  have ht₂ : (d₂ ++ extra).takeWhile Char.isDigit = d₂ :=
    takeWhile_digits _ _ hd₂ hx
  obtain ⟨c₁, cs₁, rfl⟩ := List.exists_cons_of_ne_nil h₁
  obtain ⟨c₂, cs₂, rfl⟩ := List.exists_cons_of_ne_nil h₂
  simp only [matchRange, ht, hdrop, ht₂, List.isEmpty_cons, Bool.false_eq_true, if_false]

/-! ### Decoder lemmas -/

theorem extract_bits_of_nonneg (v : Nat) (s l : Int) (hs : 0 ≤ s) (hl : 0 ≤ l) :
    extract_bits v s l = some ((v >>> s.toNat) &&& (2 ^ l.toNat - 1)) := by
  simp [extract_bits, not_lt.mpr hs, not_lt.mpr hl]

theorem dictGet_valid (m : FieldMapping) (k : String)
    (h : ∀ p ∈ m, 0 ≤ p.2.1 ∧ 0 ≤ p.2.2) :
    0 ≤ (dictGet m k (0, 0)).1 ∧ 0 ≤ (dictGet m k (0, 0)).2 := by
  unfold dictGet
  cases hf : m.find? (fun p => p.1 = k) with
  | none => simp
  | some p => exact h p (List.mem_of_find?_eq_some hf)

theorem address_mapping_func_eq (m : FieldMapping) (addr : Nat)
    (h : ∀ p ∈ m, 0 ≤ p.2.1 ∧ 0 ≤ p.2.2) :
    address_mapping_func m addr =
      some ((addr >>> (dictGet m "row" (0, 0)).1.toNat) &&&
              (2 ^ (dictGet m "row" (0, 0)).2.toNat - 1),
            (addr >>> (dictGet m "column" (0, 0)).1.toNat) &&&
              (2 ^ (dictGet m "column" (0, 0)).2.toNat - 1),
            (addr >>> (dictGet m "bank" (0, 0)).1.toNat) &&&
              (2 ^ (dictGet m "bank" (0, 0)).2.toNat - 1)) := by
  have hr := dictGet_valid m "row" h
  have hc := dictGet_valid m "column" h
  have hb := dictGet_valid m "bank" h
  rw [address_mapping_func, extract_bits_of_nonneg _ _ _ hr.1 hr.2,
    extract_bits_of_nonneg _ _ _ hc.1 hc.2, extract_bits_of_nonneg _ _ _ hb.1 hb.2]
  rfl

/-! ### Parsing-loop lemmas -/

theorem parseLinesFrom_cons (m : FieldMapping) (line : List Char)
    (ls : List (List Char)) :
    parseLinesFrom m (line :: ls) =
      parseLinesFrom
        (match matchLine line with
         | some (key, s, e) => dictInsert m key ((s : Int), (e : Int) - (s : Int) + 1)
         | none => m)
        ls := rfl

theorem parseLinesFrom_inv (P : String × FieldSpec → Prop) :
    ∀ (ls : List (List Char)) (m : FieldMapping),
    (∀ p ∈ m, P p) →
    (∀ line ∈ ls, ∀ k s e, matchLine line = some (k, s, e) →
       P (k, ((s : Int), (e : Int) - (s : Int) + 1))) →
    ∀ p ∈ parseLinesFrom m ls, P p := by
  intro ls
  induction ls with
  | nil => intro m hm _ p hp; exact hm p hp
  | cons line ls ih =>
      intro m hm hls p hp
      rw [parseLinesFrom_cons] at hp
      cases hmatch : matchLine line with
      | none =>
          rw [hmatch] at hp
          exact ih m hm (fun l hl => hls l (by simp [hl])) p hp
      | some r =>
          obtain ⟨key, s, e⟩ := r
          rw [hmatch] at hp
          refine ih _ ?_ (fun l hl => hls l (by simp [hl])) p hp
          intro q hq
          rcases mem_dictInsert _ _ _ q hq with h' | h'
          · subst h'
            exact hls line (by simp) key s e hmatch
          · exact hm q h'

theorem parseLinesFrom_filter :
    ∀ (ls : List (List Char)) (m : FieldMapping),
    parseLinesFrom m ls =
      parseLinesFrom m (ls.filter (fun l => (matchLine l).isSome)) := by
  intro ls
  induction ls with
  | nil => intro m; rfl
  | cons line ls ih =>
      intro m
      cases hmatch : matchLine line with
      | none => simp [parseLinesFrom_cons, hmatch, List.filter_cons, ih]
      | some r =>
          obtain ⟨key, s, e⟩ := r
          simp [parseLinesFrom_cons, hmatch, List.filter_cons, ih]

/-- The result of matching one line, restricted to key `k`:
the `(start, end)` pair when the line matches with that key. -/
def lineRangeFor (k : String) (line : List Char) : Option (Nat × Nat) :=
  match matchLine line with
  | some (key, s, e) => if key = k then some (s, e) else none
  | none => none

/-- The `(start, end)` pair of the last line in `ls` matching with key `k`,
if any. -/
def lastRange (k : String) (ls : List (List Char)) : Option (Nat × Nat) :=
  ls.foldr
    (fun line acc =>
      match acc with
      | some r => some r
      | none => lineRangeFor k line)
    none

theorem lastRange_cons (k : String) (line : List Char) (ls : List (List Char)) :
    lastRange k (line :: ls) =
      match lastRange k ls with
      | some r => some r
      | none => lineRangeFor k line := rfl

theorem dictGet_parseLinesFrom (k : String) (d : FieldSpec) :
    ∀ (ls : List (List Char)) (m : FieldMapping),
    dictGet (parseLinesFrom m ls) k d =
      match lastRange k ls with
      | some (s, e) => ((s : Int), (e : Int) - (s : Int) + 1)
      | none => dictGet m k d := by
  intro ls
  induction ls with
  | nil => intro m; rfl
  | cons line ls ih =>
      intro m
      rw [parseLinesFrom_cons, lastRange_cons, ih]
      cases h₁ : lastRange k ls with
      | some r => rfl
      | none =>
          cases h₂ : matchLine line with
          | none => simp [lineRangeFor, h₂]
          | some r =>
              obtain ⟨key, s, e⟩ := r
              by_cases hk : key = k
              · subst hk
                simp [lineRangeFor, h₂, dictGet_dictInsert_self]
              · simp [lineRangeFor, h₂, hk, dictGet_dictInsert_ne _ _ _ _ _ hk]

/-- A mask of `w` low-order one bits keeps the result below `2 ^ w`. -/
theorem masked_lt (x w : Nat) : x &&& (2 ^ w - 1) < 2 ^ w := by
  have h₁ : x &&& (2 ^ w - 1) ≤ 2 ^ w - 1 := Nat.and_le_right
  have h₂ : 0 < 2 ^ w := pow_pos (by norm_num) w
  omega

/-- C1: for the report text listing row bits 14-29, column bits 2-13 and
bank bits 30-32, the generated decoder applied to physical address
0x12345678 returns exactly the triple obtained by right-shifting the
address by each field start bit and masking with the field-width mask. -/
theorem end_to_end_decode :
    generate_address_mapping_function
      (parse_drama_output "Row bits 14-29\nColumn bits 2-13\nBank bits 30-32\n")
      0x12345678 =
    some ((0x12345678 >>> 14) &&& 0xFFFF, (0x12345678 >>> 2) &&& 0xFFF,
      (0x12345678 >>> 30) &&& 0x7) := by
  decide

/-- C2: for every field spec `(offset, width)` with `offset + width ≤ 64`
and every 64-bit value, `extract_bits` returns the unsigned integer encoded
in bits `[offset, offset + width)` of the value; for the mapping
`row -> (4, 4)` the decoder yields row 0xF on 0xF0 and row 0 on 0x0F, and a
width of 0 masks everything to 0. -/
theorem extract_bits_spec (offset width value : Nat)
    (h₁ : offset + width ≤ 64) (h₂ : value < 2 ^ 64) :
    extract_bits value (offset : Int) (width : Int) =
      some (value / 2 ^ offset % 2 ^ width)
    ∧ address_mapping_func [("row", ((4 : Int), (4 : Int)))] 0xF0 = some (0xF, 0, 0)
    ∧ address_mapping_func [("row", ((4 : Int), (4 : Int)))] 0x0F = some (0, 0, 0)
    ∧ extract_bits value (offset : Int) 0 = some 0 := by
  refine ⟨?_, by decide, by decide, ?_⟩
  · rw [extract_bits_of_nonneg value _ _ (Int.natCast_nonneg offset)
      (Int.natCast_nonneg width)]
    simp [Int.toNat_natCast, Nat.shiftRight_eq_div_pow, Nat.and_pow_two_sub_one_eq_mod]
  · rw [extract_bits_of_nonneg value _ _ (Int.natCast_nonneg offset) le_rfl]
    simp

theorem extract_bits_spec_witness :
    (4 + 4 ≤ 64 ∧ (0xF0 : Nat) < 2 ^ 64) ∧
    extract_bits 0xF0 ((4 : Nat) : Int) ((4 : Nat) : Int) =
      some (0xF0 / 2 ^ 4 % 2 ^ 4) :=
  ⟨⟨by decide, by decide⟩, (extract_bits_spec 4 4 0xF0 (by decide) (by decide)).1⟩

/-- C3: every line matched by the pattern is recorded under the label's
lowercase key with offset `start` and width `end - start + 1`; in
particular parsing a single report line of row bits 10-15 yields
`row -> (10, 6)`. -/
theorem parse_records_matching_line (m : FieldMapping) (line : List Char)
    (k : String) (s e : Nat) (h : matchLine line = some (k, s, e)) :
    dictGet (parseLinesFrom m [line]) k (0, 0) = ((s : Int), (e : Int) - (s : Int) + 1)
    ∧ parse_drama_output "Row bits 10-15\n" = [("row", ((10 : Int), (6 : Int)))] := by
  refine ⟨?_, by decide⟩
  rw [parseLinesFrom_cons, h]
  exact dictGet_dictInsert_self m k _ _

theorem parse_records_matching_line_witness :
    matchLine ("Row bits 10-15".data) = some ("row", 10, 15) ∧
    dictGet (parseLinesFrom [] ["Row bits 10-15".data]) "row" (0, 0) =
      (((10 : Nat) : Int), ((15 : Nat) : Int) - ((10 : Nat) : Int) + 1) :=
  ⟨by decide, (parse_records_matching_line [] _ "row" 10 15 (by decide)).1⟩

/-- C4: when the same recognized label occurs on several matching lines,
the recorded field spec is the one computed from the last such line
(last write wins, no error); in particular two row lines with ranges 0-3
then 4-7 yield `row -> (4, 4)`. -/
theorem parse_last_write_wins (text : String) (k : String) (s e : Nat)
    (h : lastRange k (splitlines text.data) = some (s, e)) :
    dictGet (parse_drama_output text) k (0, 0) = ((s : Int), (e : Int) - (s : Int) + 1)
    ∧ parse_drama_output "Row bits 0-3\nRow bits 4-7\n" = [("row", ((4 : Int), (4 : Int)))] := by
  refine ⟨?_, by decide⟩
  rw [parse_drama_output, dictGet_parseLinesFrom, h]

theorem parse_last_write_wins_witness :
    lastRange "row" (splitlines "Row bits 0-3\nRow bits 4-7\n".data) = some (4, 7) ∧
    dictGet (parse_drama_output "Row bits 0-3\nRow bits 4-7\n") "row" (0, 0) =
      (((4 : Nat) : Int), ((7 : Nat) : Int) - ((4 : Nat) : Int) + 1) :=
  ⟨by decide, (parse_last_write_wins "Row bits 0-3\nRow bits 4-7\n" "row" 4 7 (by decide)).1⟩

/-- C5: parsing never fails (it is a total function) and lines that do not
match the recognized pattern contribute no entries: the parse result equals
the parse of the matching lines alone; in particular a garbage line before
a row line leaves exactly `row -> (2, 2)`. -/
theorem parse_permissive (text : String) :
    parse_drama_output text =
      parseLinesFrom [] ((splitlines text.data).filter (fun l => (matchLine l).isSome))
    ∧ parse_drama_output "garbage\nRow bits 2-3\n" = [("row", ((2 : Int), (2 : Int)))] :=
  ⟨parseLinesFrom_filter (splitlines text.data) [], by decide⟩

/-- C6: when a target field name (row, column or bank) is absent from the
mapping, the decoder substitutes the default spec `(0, 0)` and returns 0
for that field on every address, instead of failing.  The mapping is
assumed to hold well-formed field specs (non-negative offset and width),
as the spec's data model requires. -/
theorem missing_field_decodes_zero (m : FieldMapping) (addr : Nat)
    (hv : ∀ p ∈ m, 0 ≤ p.2.1 ∧ 0 ≤ p.2.2) :
    (m.find? (fun p => p.1 = "row") = none →
       (address_mapping_func m addr).map (fun t => t.1) = some 0)
    ∧ (m.find? (fun p => p.1 = "column") = none →
       (address_mapping_func m addr).map (fun t => t.2.1) = some 0)
    ∧ (m.find? (fun p => p.1 = "bank") = none →
       (address_mapping_func m addr).map (fun t => t.2.2) = some 0) := by
  refine ⟨?_, ?_, ?_⟩ <;> intro habs
  · have h0 : dictGet m "row" (0, 0) = ((0 : Int), (0 : Int)) := by
      unfold dictGet
      rw [habs]
    rw [address_mapping_func_eq m addr hv, h0]
    simp
  · have h0 : dictGet m "column" (0, 0) = ((0 : Int), (0 : Int)) := by
      unfold dictGet
      rw [habs]
    rw [address_mapping_func_eq m addr hv, h0]
    simp
  · have h0 : dictGet m "bank" (0, 0) = ((0 : Int), (0 : Int)) := by
      unfold dictGet
      rw [habs]
    rw [address_mapping_func_eq m addr hv, h0]
    simp

theorem missing_field_decodes_zero_witness :
    (address_mapping_func [("column", ((2 : Int), (3 : Int)))] 5).map
      (fun t => t.1) = some 0 ∧
    (address_mapping_func [("column", ((2 : Int), (3 : Int)))] 5).map
      (fun t => t.2.2) = some 0 :=
  ⟨(missing_field_decodes_zero [("column", ((2 : Int), (3 : Int)))] 5
      (by decide)).1 (by decide),
   (missing_field_decodes_zero [("column", ((2 : Int), (3 : Int)))] 5
      (by decide)).2.2 (by decide)⟩

/-- A matched line has an ordered bit range: `start ≤ end` when the line
matches the pattern (vacuously true for non-matching lines). -/
def lineRangeOrderedB (line : List Char) : Bool :=
  match matchLine line with
  | some (_, s, e) => decide (s ≤ e)
  | none => true

/-- C7 counterexample: the report line listing row bits 2-0 parses fine,
but the generated decoder raises (the stored width is `0 - 2 + 1 = -1` and
`1 << -1` is a `ValueError`), so the decoder is not total over all input
texts. -/
theorem decoder_raises_on_reversed_range :
    generate_address_mapping_function (parse_drama_output "Row bits 2-0\n")
      0x12345678 = none := by
  decide

/-- C7 (amended): parsing is total for every input text, and for every
input text whose matching lines all carry an ordered range
(`start ≤ end`), the generated decoder returns a (row, column, bank)
triple, raising no error, on every unsigned address. -/
theorem decoder_total_on_ordered_ranges (text : String) (addr : Nat)
    (h : ∀ line ∈ splitlines text.data, lineRangeOrderedB line = true) :
    ∃ t, generate_address_mapping_function (parse_drama_output text) addr = some t := by
  have hv : ∀ p ∈ parse_drama_output text, 0 ≤ p.2.1 ∧ 0 ≤ p.2.2 := by
    refine parseLinesFrom_inv _ _ _ (by simp) ?_
    intro line hl k s e hm
    have hb := h line hl
    unfold lineRangeOrderedB at hb
    rw [hm] at hb
    simp at hb
    refine ⟨Int.natCast_nonneg s, ?_⟩
    show (0 : Int) ≤ (e : Int) - (s : Int) + 1
    omega
  exact ⟨_, address_mapping_func_eq _ addr hv⟩

theorem decoder_total_on_ordered_ranges_witness :
    (∀ line ∈ splitlines "Row bits 14-29\nColumn bits 2-13\nBank bits 30-32\n".data,
      lineRangeOrderedB line = true) ∧
    ∃ t, generate_address_mapping_function
      (parse_drama_output "Row bits 14-29\nColumn bits 2-13\nBank bits 30-32\n")
      0x12345678 = some t :=
  ⟨by decide,
   decoder_total_on_ordered_ranges "Row bits 14-29\nColumn bits 2-13\nBank bits 30-32\n"
     0x12345678 (by decide)⟩

/-- C8 counterexample: the pattern does not require `start ≤ end`, so the
line of row bits 2-0 is recorded with the negative width `-1`, refuting
the claim that every recorded width is non-negative. -/
theorem parse_width_negative_counterexample :
    ¬ (∀ p ∈ parse_drama_output "Row bits 2-0\n", 0 ≤ p.2.2) := by
  decide

/-- C8 (amended): every entry recorded by the parser has a non-negative
offset and satisfies `offset + width ≥ 1` (the width is
`end - start + 1`, so `offset + width = end + 1 ≥ 1`); the width itself
can be zero or negative when a matched line has `end < start`. -/
theorem parse_range_invariant (text : String) :
    ∀ p ∈ parse_drama_output text, 0 ≤ p.2.1 ∧ 1 ≤ p.2.1 + p.2.2 := by
  refine parseLinesFrom_inv _ _ _ (by simp) ?_
  intro line _ k s e _
  refine ⟨Int.natCast_nonneg s, ?_⟩
  show (1 : Int) ≤ (s : Int) + ((e : Int) - (s : Int) + 1)
  omega

theorem parse_range_invariant_witness :
    (("row", ((2 : Int), (-1 : Int))) ∈ parse_drama_output "Row bits 2-0\n") ∧
    (0 ≤ (2 : Int) ∧ 1 ≤ (2 : Int) + (-1 : Int)) :=
  ⟨by decide,
   parse_range_invariant "Row bits 2-0\n" ("row", ((2 : Int), (-1 : Int))) (by decide)⟩

/-- C10: on a mapping whose field specs are well formed (non-negative
offset and width) the decoder returns a triple, and each component is
strictly below two to that field's width. -/
theorem decoded_values_bounded (m : FieldMapping) (addr : Nat)
    (hv : ∀ p ∈ m, 0 ≤ p.2.1 ∧ 0 ≤ p.2.2) :
    ∃ r c b, address_mapping_func m addr = some (r, c, b) ∧
      r < 2 ^ (dictGet m "row" (0, 0)).2.toNat ∧
      c < 2 ^ (dictGet m "column" (0, 0)).2.toNat ∧
      b < 2 ^ (dictGet m "bank" (0, 0)).2.toNat :=
  ⟨_, _, _, address_mapping_func_eq m addr hv,
    masked_lt _ _, masked_lt _ _, masked_lt _ _⟩

theorem decoded_values_bounded_witness :
    ∃ r c b,
      address_mapping_func [("row", ((4 : Int), (4 : Int)))] 0xF0 = some (r, c, b) ∧
      r < 2 ^ (dictGet [("row", ((4 : Int), (4 : Int)))] "row" (0, 0)).2.toNat ∧
      c < 2 ^ (dictGet [("row", ((4 : Int), (4 : Int)))] "column" (0, 0)).2.toNat ∧
      b < 2 ^ (dictGet [("row", ((4 : Int), (4 : Int)))] "bank" (0, 0)).2.toNat :=
  decoded_values_bounded [("row", ((4 : Int), (4 : Int)))] 0xF0 (by decide)

/-- C9: the match is anchored only at the start of the line, so a line
made of a recognized label, the literal text, a digit run, a dash, a digit
run and then arbitrary trailing content (not starting with a further
digit, which would instead extend the second integer) is matched and
recorded exactly as without the trailing content; in particular a
parenthesised remark after the range is accepted. -/
theorem match_accepts_trailing (lab key : String)
    (hmem : (lab, key) ∈ [("Row", "row"), ("Column", "column"), ("Bank", "bank")])
    (d₁ d₂ extra : List Char)
    (h₁ : d₁ ≠ []) (h₂ : d₂ ≠ [])
    (hd₁ : ∀ c ∈ d₁, Char.isDigit c) (hd₂ : ∀ c ∈ d₂, Char.isDigit c)
    (hx : ∀ c, extra.head? = some c → Char.isDigit c = false) :
    matchLine (lab.data ++ " bits ".data ++ (d₁ ++ '-' :: (d₂ ++ extra))) =
      some (key, digitsToNat d₁, digitsToNat d₂)
    ∧ parse_drama_output "Row bits 2-3 (extra text)\n" =
        [("row", ((2 : Int), (2 : Int)))] := by
  refine ⟨?_, by decide⟩
  have hrange : matchRange (d₁ ++ '-' :: (d₂ ++ extra)) =
      some (digitsToNat d₁, digitsToNat d₂) :=
    matchRange_eq d₁ d₂ extra h₁ h₂ hd₁ hd₂ hx
  simp only [List.mem_cons, List.not_mem_nil, or_false, Prod.mk.injEq] at hmem
  rcases hmem with ⟨rfl, rfl⟩ | ⟨rfl, rfl⟩ | ⟨rfl, rfl⟩
  · have hlit : matchLit ("Row".data ++ " bits ".data)
        ("Row".data ++ " bits ".data ++ (d₁ ++ '-' :: (d₂ ++ extra))) =
        some (d₁ ++ '-' :: (d₂ ++ extra)) :=
      matchLit_self_append ("Row bits ".data) (d₁ ++ '-' :: (d₂ ++ extra))
    simp only [matchLine, tryLabel, hlit, hrange]
  · have hrow : matchLit ("Row".data ++ " bits ".data)
        ("Column".data ++ " bits ".data ++ (d₁ ++ '-' :: (d₂ ++ extra))) = none :=
      matchLit_cons_ne 'R' 'C' ("ow bits ".data)
        ("olumn".data ++ (" bits ".data ++ (d₁ ++ '-' :: (d₂ ++ extra)))) (by decide)
    have hlit : matchLit ("Column".data ++ " bits ".data)
        ("Column".data ++ " bits ".data ++ (d₁ ++ '-' :: (d₂ ++ extra))) =
        some (d₁ ++ '-' :: (d₂ ++ extra)) :=
      matchLit_self_append ("Column bits ".data) (d₁ ++ '-' :: (d₂ ++ extra))
    simp only [matchLine, tryLabel, hrow, hlit, hrange]
  · have hrow : matchLit ("Row".data ++ " bits ".data)
        ("Bank".data ++ " bits ".data ++ (d₁ ++ '-' :: (d₂ ++ extra))) = none :=
      matchLit_cons_ne 'R' 'B' ("ow bits ".data)
        ("ank".data ++ (" bits ".data ++ (d₁ ++ '-' :: (d₂ ++ extra)))) (by decide)
    have hcol : matchLit ("Column".data ++ " bits ".data)
        ("Bank".data ++ " bits ".data ++ (d₁ ++ '-' :: (d₂ ++ extra))) = none :=
      matchLit_cons_ne 'C' 'B' ("olumn bits ".data)
        ("ank".data ++ (" bits ".data ++ (d₁ ++ '-' :: (d₂ ++ extra)))) (by decide)
    have hlit : matchLit ("Bank".data ++ " bits ".data)
        ("Bank".data ++ " bits ".data ++ (d₁ ++ '-' :: (d₂ ++ extra))) =
        some (d₁ ++ '-' :: (d₂ ++ extra)) :=
      matchLit_self_append ("Bank bits ".data) (d₁ ++ '-' :: (d₂ ++ extra))
    simp only [matchLine, tryLabel, hrow, hcol, hlit, hrange]

theorem match_accepts_trailing_witness :
    matchLine ("Row".data ++ " bits ".data ++
        (['2'] ++ '-' :: (['3'] ++ " (extra text)".data))) =
      some ("row", digitsToNat ['2'], digitsToNat ['3']) :=
  (match_accepts_trailing "Row" "row" (by decide) ['2'] ['3'] " (extra text)".data
    (by decide) (by decide) (by decide) (by decide)
    (by
      intro c hc
      rw [show (" (extra text)".data).head? = some ' ' from rfl] at hc
      injection hc with h
      subst h
      decide)).1
